import Mathlib

/-!
Verification of the streaming-iterator library.

The library is a Rust crate (src/lib.rs) defining the trait
StreamingIterator with primitive operations advance and get, derived
operations (next, count, nth, find, position, all, any, size_hint), and
adaptors (Convert, Filter, FilterMap, Map, Skip, SkipWhile, Take, Fuse,
Cloned, Owned).

Shallow embedding: a streaming iterator over a state type sigma is a record
of pure state functions.  The Rust method advance(&mut self) becomes
advance : sigma -> sigma; get(&self) -> Option<&T> becomes
get : sigma -> Option alpha; size_hint becomes
sizeHint : sigma -> Nat x Option Nat.  Loops in the source that are not
structurally bounded (Filter.advance, FilterMap.advance, find) take an
explicit fuel parameter; every statement about them assumes the fuel
exceeds the length of the remaining yielded sequence, which makes the
fueled function agree with the source loop.
-/

/-- The StreamingIterator trait: advance, get, and size_hint as pure
functions of an explicit iterator state. -/
structure SIter (σ : Type) (α : Type) where
  advance : σ → σ
  get : σ → Option α
  sizeHint : σ → Nat × Option Nat

namespace SIter

variable {σ α : Type}

/-- Default next: advance followed by get, returning the new state and
the value read. -/
def next (it : SIter σ α) (s : σ) : σ × Option α :=
  let s1 := it.advance s
  (s1, it.get s1)

/-- StreamingIterator::nth: advance n times checking get after each, then
a final next.  Returns the final state and the value. -/
def nth (it : SIter σ α) : Nat → σ → σ × Option α
  | 0, s => it.next s
  | n + 1, s =>
    let s1 := it.advance s
    match it.get s1 with
    | none => (s1, none)
    | some _ => it.nth n s1

/-- The sequence of elements yielded by repeatedly calling next, stopping
at the first none or when the fuel runs out. -/
def collectF (it : SIter σ α) : Nat → σ → List α
  | 0, _ => []
  | fuel + 1, s =>
    let s1 := it.advance s
    match it.get s1 with
    | none => []
    | some x => x :: it.collectF fuel s1

/-- Default StreamingIterator::count: repeatedly call next until none,
counting the successes (fueled). -/
def countF (it : SIter σ α) : Nat → σ → Nat
  | 0, _ => 0
  | fuel + 1, s =>
    let s1 := it.advance s
    match it.get s1 with
    | none => 0
    | some _ => it.countF fuel s1 + 1

/-- The loop shared by Filter::advance, find and SkipWhile::advance:
repeatedly call next until the predicate holds on the element read or
none is read, and stop in that state (fueled). -/
def advanceUntil (it : SIter σ α) (p : α → Bool) : Nat → σ → σ
  | 0, s => s
  | fuel + 1, s =>
    let s1 := it.advance s
    match it.get s1 with
    | none => s1
    | some x => if p x then s1 else it.advanceUntil p fuel s1

end SIter

/-- A cursor state s yields exactly the list l: collecting with any
sufficient fuel returns l. -/
def Sim {σ α : Type} (it : SIter σ α) (s : σ) (l : List α) : Prop :=
  ∀ fuel, l.length < fuel → it.collectF fuel s = l

/-- The underlying value-producing sequence (Rust Iterator trait): next
yields an optional value and a new state. -/
structure RsIter (σ : Type) (α : Type) where
  next : σ → Option α × σ
  sizeHint : σ → Nat × Option Nat

/-- Default Iterator::count of the underlying sequence: pull until none
(fueled). -/
def RsIter.countF {σ α : Type} (ri : RsIter σ α) : Nat → σ → Nat
  | 0, _ => 0
  | fuel + 1, s =>
    match ri.next s with
    | (none, _) => 0
    | (some _, s1) => ri.countF fuel s1 + 1

/-- The list-backed underlying sequence (e.g. a slice iterator), whose
size_hint is exact. -/
def listRsIter (α : Type) : RsIter (List α) α where
  next
    | [] => (none, [])
    | x :: xs => (some x, xs)
  sizeHint l := (l.length, some l.length)

/-- State of Convert: the underlying sequence state and the stored item. -/
structure ConvertS (σ : Type) (α : Type) where
  it : σ
  item : Option α

/-- Convert: advance pulls one value from the underlying sequence and
stores it; get returns a reference to the stored value; size_hint
delegates to the underlying sequence. -/
def convertIter {σ α : Type} (ri : RsIter σ α) : SIter (ConvertS σ α) α where
  advance s :=
    let r := ri.next s.it
    ⟨r.2, r.1⟩
  get s := s.item
  sizeHint s := ri.sizeHint s.it

/-- Convert::count override: delegates to the underlying sequence's
count. -/
def Convert.count {σ α : Type} (ri : RsIter σ α) (fuel : Nat)
    (s : ConvertS σ α) : Nat :=
  ri.countF fuel s.it

/-- State of Map: the inner state and the stored mapped item. -/
structure MapS (σ : Type) (β : Type) where
  it : σ
  item : Option β

/-- Map: advance pulls inner.next and stores the image under f; get
returns the stored item; size_hint passes through. -/
def mapIter {σ α β : Type} (it : SIter σ α) (f : α → β) :
    SIter (MapS σ β) β where
  advance s :=
    let r := it.next s.it
    ⟨r.1, r.2.map f⟩
  get s := s.item
  sizeHint s := it.sizeHint s.it

/-- Filter: advance re-advances the inner cursor until the predicate
holds or the inner cursor is exhausted (fueled loop); get delegates to
the inner get; size_hint is (0, inner upper bound).  Filter has no state
beyond the inner cursor. -/
def filterIter {σ α : Type} (it : SIter σ α) (p : α → Bool) (fuel : Nat) :
    SIter σ α where
  advance s := it.advanceUntil p fuel s
  get s := it.get s
  sizeHint s := (0, (it.sizeHint s).2)

/-- State of FilterMap: the inner state and the stored mapped item. -/
structure FilterMapS (σ : Type) (β : Type) where
  it : σ
  item : Option β

/-- The loop of FilterMap::advance: pull inner.next, apply f, store the
first success, or store none on exhaustion (fueled). -/
def FilterMap.advanceF {σ α β : Type} (it : SIter σ α) (f : α → Option β) :
    Nat → FilterMapS σ β → FilterMapS σ β
  | 0, s => s
  | fuel + 1, s =>
    let s1 := it.advance s.it
    match it.get s1 with
    | none => ⟨s1, none⟩
    | some x =>
      match f x with
      | some b => ⟨s1, some b⟩
      | none => FilterMap.advanceF it f fuel ⟨s1, s.item⟩

/-- FilterMap: advance is the fueled loop; get returns the stored item;
size_hint is (0, inner upper bound). -/
def filterMapIter {σ α β : Type} (it : SIter σ α) (f : α → Option β)
    (fuel : Nat) : SIter (FilterMapS σ β) β where
  advance s := FilterMap.advanceF it f fuel s
  get s := s.item
  sizeHint s := (0, (it.sizeHint s.it).2)

/-- The tri-state of Fuse. -/
inductive FuseState where
  | Start
  | Middle
  | End
deriving DecidableEq, Repr

/-- State of Fuse: the inner state and the tri-state. -/
structure FuseS (σ : Type) where
  it : σ
  state : FuseState

/-- Fuse::advance, translated case by case from the source state
machine. -/
def Fuse.advance {σ α : Type} (it : SIter σ α) (s : FuseS σ) : FuseS σ :=
  match s.state with
  | FuseState.Start =>
    let s1 := it.advance s.it
    match it.get s1 with
    | some _ => ⟨s1, FuseState.Middle⟩
    | none => ⟨s1, FuseState.End⟩
  | FuseState.Middle =>
    let s1 := it.advance s.it
    match it.get s1 with
    | some _ => ⟨s1, FuseState.Middle⟩
    | none => ⟨s1, FuseState.End⟩
  | FuseState.End => s

/-- Fuse::get: none in Start and End, delegate in Middle. -/
def Fuse.get {σ α : Type} (it : SIter σ α) (s : FuseS σ) : Option α :=
  match s.state with
  | FuseState.Start => none
  | FuseState.Middle => it.get s.it
  | FuseState.End => none

/-- Fuse as a streaming iterator; size_hint delegates to the inner
cursor. -/
def fuseIter {σ α : Type} (it : SIter σ α) : SIter (FuseS σ) α where
  advance s := Fuse.advance it s
  get s := Fuse.get it s
  sizeHint s := it.sizeHint s.it

/-- Fuse's specialized next override, translated case by case from the
source. -/
def Fuse.nextImpl {σ α : Type} (it : SIter σ α) (s : FuseS σ) :
    FuseS σ × Option α :=
  match s.state with
  | FuseState.Start =>
    match it.next s.it with
    | (s1, some x) => (⟨s1, FuseState.Middle⟩, some x)
    | (s1, none) => (⟨s1, FuseState.End⟩, none)
  | FuseState.Middle =>
    match it.next s.it with
    | (s1, some x) => (⟨s1, FuseState.Middle⟩, some x)
    | (s1, none) => (⟨s1, FuseState.End⟩, none)
  | FuseState.End => (s, none)

/-- Fuse's specialized count override: delegate to the inner count in
Start and Middle, 0 in End. -/
def Fuse.countF {σ α : Type} (it : SIter σ α) (fuel : Nat) (s : FuseS σ) :
    Nat :=
  match s.state with
  | FuseState.Start => it.countF fuel s.it
  | FuseState.Middle => it.countF fuel s.it
  | FuseState.End => 0

/-- State of Skip: the inner state and the remaining skip count. -/
structure SkipS (σ : Type) where
  it : σ
  n : Nat

/-- Skip: advance performs inner.nth(n) and zeroes the count; get
delegates; size_hint saturating-subtracts n. -/
def skipIter {σ α : Type} (it : SIter σ α) : SIter (SkipS σ) α where
  advance s := ⟨(it.nth s.n s.it).1, 0⟩
  get s := it.get s.it
  sizeHint s :=
    let hint := it.sizeHint s.it
    (hint.1 - s.n, hint.2.map fun n => n - s.n)

/-- State of SkipWhile: the inner state and the done flag. -/
structure SkipWhileS (σ : Type) where
  it : σ
  done : Bool

/-- SkipWhile: before done, advance runs inner.find(not p) (the
advance-until loop with the negated predicate) and sets done; afterwards
it is a plain inner advance.  get delegates; size_hint is
(0, inner upper bound). -/
def skipWhileIter {σ α : Type} (it : SIter σ α) (p : α → Bool)
    (fuel : Nat) : SIter (SkipWhileS σ) α where
  advance s :=
    if s.done then ⟨it.advance s.it, s.done⟩
    else ⟨it.advanceUntil (fun x => !p x) fuel s.it, true⟩
  get s := it.get s.it
  sizeHint s := (0, (it.sizeHint s.it).2)

/-- State of Take: the inner state, the remaining count, and the done
flag. -/
structure TakeS (σ : Type) where
  it : σ
  n : Nat
  done : Bool

/-- Take::advance: while the count is nonzero delegate to the inner
advance and decrement; at zero only set the done flag. -/
def Take.advance {σ α : Type} (it : SIter σ α) (s : TakeS σ) : TakeS σ :=
  if s.n ≠ 0 then ⟨it.advance s.it, s.n - 1, s.done⟩
  else ⟨s.it, s.n, true⟩

/-- Take::get: none once done, otherwise delegate. -/
def Take.get {σ α : Type} (it : SIter σ α) (s : TakeS σ) : Option α :=
  if s.done then none else it.get s.it

/-- Take as a streaming iterator; size_hint is (min inner-lower n,
some n). -/
def takeIter {σ α : Type} (it : SIter σ α) : SIter (TakeS σ) α where
  advance s := Take.advance it s
  get s := Take.get it s
  sizeHint s :=
    let hint := it.sizeHint s.it
    (min hint.1 s.n, some s.n)

/-- An inner cursor instrumented with a counter of advance calls, used
to state that an adaptor performs no further inner delegation. -/
def instrumented {σ α : Type} (it : SIter σ α) : SIter (σ × Nat) α where
  advance s := (it.advance s.1, s.2 + 1)
  get s := it.get s.1
  sizeHint s := it.sizeHint s.1

/-!
Adaptor chains.  For the count/size_hint consistency claim we quantify
over every chain of adaptors applied to a Convert of a well-behaved
(list-backed, exact-hint) finite source.  The chain is a syntax tree;
its machine is assembled from the adaptor definitions above.
-/

/-- A chain of adaptors over a converted finite source. -/
inductive Chain (α : Type) : Type where
  | base (l : List α)
  | map (f : α → α) (c : Chain α)
  | filter (p : α → Bool) (c : Chain α)
  | filterMap (f : α → Option α) (c : Chain α)
  | skip (n : Nat) (c : Chain α)
  | skipWhile (p : α → Bool) (c : Chain α)
  | take (n : Nat) (c : Chain α)
  | fuse (c : Chain α)

/-- The state type of a chain's cursor. -/
def Chain.State {α : Type} : Chain α → Type
  | .base _ => ConvertS (List α) α
  | .map _ c => MapS c.State α
  | .filter _ c => c.State
  | .filterMap _ c => FilterMapS c.State α
  | .skip _ c => SkipS c.State
  | .skipWhile _ c => SkipWhileS c.State
  | .take _ c => TakeS c.State
  | .fuse c => FuseS c.State

/-- The cursor of a chain, assembled from the adaptor definitions. -/
def Chain.iter {α : Type} (fuel : Nat) : (c : Chain α) → SIter c.State α
  | .base _ => convertIter (listRsIter α)
  | .map f c => mapIter (c.iter fuel) f
  | .filter p c => filterIter (c.iter fuel) p fuel
  | .filterMap f c => filterMapIter (c.iter fuel) f fuel
  | .skip _ c => skipIter (c.iter fuel)
  | .skipWhile p c => skipWhileIter (c.iter fuel) p fuel
  | .take _ c => takeIter (c.iter fuel)
  | .fuse c => fuseIter (c.iter fuel)

/-- The initial (before-first-advance) state of a chain, as built by the
adaptor constructors in the source. -/
def Chain.init {α : Type} : (c : Chain α) → c.State
  | .base l => ⟨l, none⟩
  | .map _ c => ⟨c.init, none⟩
  | .filter _ c => c.init
  | .filterMap _ c => ⟨c.init, none⟩
  | .skip n c => ⟨c.init, n⟩
  | .skipWhile _ c => ⟨c.init, false⟩
  | .take n c => ⟨c.init, n, false⟩
  | .fuse c => ⟨c.init, FuseState.Start⟩

/-- The list of elements a chain yields, as a list-level denotation (the
bridge theorems prove the machine yields exactly this). -/
def Chain.den {α : Type} : Chain α → List α
  | .base l => l
  | .map f c => c.den.map f
  | .filter p c => c.den.filter p
  | .filterMap f c => c.den.filterMap f
  | .skip n c => c.den.drop n
  | .skipWhile p c => c.den.dropWhile p
  | .take n c => c.den.take n
  | .fuse c => c.den

/-- The length of the base list of a chain: an upper bound on every
intermediate yield, used to size loop fuel. -/
def Chain.baseLen {α : Type} : Chain α → Nat
  | .base l => l.length
  | .map _ c => c.baseLen
  | .filter _ c => c.baseLen
  | .filterMap _ c => c.baseLen
  | .skip _ c => c.baseLen
  | .skipWhile _ c => c.baseLen
  | .take _ c => c.baseLen
  | .fuse c => c.baseLen

/-- The dispatched count() of a chain: Convert and Fuse use their
specialized overrides, every other adaptor uses the default fueled
count loop. -/
def Chain.countF {α : Type} (fuel : Nat) : (c : Chain α) → c.State → Nat
  | .base _, s => s.it.length
  | .map f c, s => ((Chain.map f c).iter fuel).countF fuel s
  | .filter p c, s => ((Chain.filter p c).iter fuel).countF fuel s
  | .filterMap f c, s => ((Chain.filterMap f c).iter fuel).countF fuel s
  | .skip n c, s => ((Chain.skip n c).iter fuel).countF fuel s
  | .skipWhile p c, s => ((Chain.skipWhile p c).iter fuel).countF fuel s
  | .take n c, s => ((Chain.take n c).iter fuel).countF fuel s
  | .fuse c, s =>
    match s.state with
    | FuseState.Start => Chain.countF fuel c s.it
    | FuseState.Middle => Chain.countF fuel c s.it
    | FuseState.End => 0

/-!
Basic lemmas about collection and the Sim relation.
-/

theorem collectF_zero {σ α : Type} (it : SIter σ α) (s : σ) :
    it.collectF 0 s = [] := rfl

theorem collectF_succ {σ α : Type} (it : SIter σ α) (fuel : Nat) (s : σ) :
    it.collectF (fuel + 1) s =
      match it.get (it.advance s) with
      | none => []
      | some x => x :: it.collectF fuel (it.advance s) := rfl

theorem countF_eq_length_collectF {σ α : Type} (it : SIter σ α) :
    ∀ (fuel : Nat) (s : σ), it.countF fuel s = (it.collectF fuel s).length := by
  intro fuel
  induction fuel with
  | zero => intro s; rfl
  | succ n ih =>
    intro s
    simp only [SIter.countF, SIter.collectF]
    cases it.get (it.advance s) <;> simp [ih]

theorem Sim.nil {σ α : Type} {it : SIter σ α} {s : σ}
    (h : it.get (it.advance s) = none) : Sim it s [] := by
  intro fuel hf
  match fuel, hf with
  | n + 1, _ => simp [collectF_succ, h]

theorem Sim.cons {σ α : Type} {it : SIter σ α} {s : σ} {x : α} {xs : List α}
    (h1 : it.get (it.advance s) = some x)
    (h2 : Sim it (it.advance s) xs) : Sim it s (x :: xs) := by
  intro fuel hf
  match fuel, hf with
  | n + 1, hf =>
    have hn : xs.length < n := by simpa using hf
    simp [collectF_succ, h1, h2 n hn]

theorem Sim.get_none {σ α : Type} {it : SIter σ α} {s : σ}
    (h : Sim it s []) : it.get (it.advance s) = none := by
  have h1 := h 1 Nat.zero_lt_one
  cases hg : it.get (it.advance s) with
  | none => rfl
  | some x => simp [collectF_succ, hg] at h1

theorem Sim.get_some {σ α : Type} {it : SIter σ α} {s : σ} {x : α}
    {xs : List α} (h : Sim it s (x :: xs)) :
    it.get (it.advance s) = some x := by
  have h1 := h (xs.length + 2) (by simp)
  cases hg : it.get (it.advance s) with
  | none => simp [collectF_succ, hg] at h1
  | some y =>
    simp [collectF_succ, hg] at h1
    rw [h1.1]

theorem Sim.tail {σ α : Type} {it : SIter σ α} {s : σ} {x : α}
    {xs : List α} (h : Sim it s (x :: xs)) : Sim it (it.advance s) xs := by
  intro fuel hf
  have hg := Sim.get_some h
  have h1 := h (fuel + 1) (by simp; omega)
  simp [collectF_succ, hg] at h1
  exact h1

theorem Sim.of_advance_eq {σ α : Type} {it : SIter σ α} {s s' : σ}
    {l : List α} (hadv : it.advance s = it.advance s')
    (h : Sim it s' l) : Sim it s l := by
  intro fuel hf
  match fuel, hf with
  | n + 1, hf =>
    have h2 := h (n + 1) hf
    rw [collectF_succ, hadv, ← collectF_succ]
    exact h2

theorem Sim.unique {σ α : Type} {it : SIter σ α} {s : σ} {l1 l2 : List α}
    (h1 : Sim it s l1) (h2 : Sim it s l2) : l1 = l2 := by
  have e1 := h1 (l1.length + l2.length + 1) (by omega)
  have e2 := h2 (l1.length + l2.length + 1) (by omega)
  exact e1.symm.trans e2

/-!
Simulation lemmas for the individual adaptors.
-/

@[simp]
theorem mapIter_advance {σ α β : Type} (it : SIter σ α) (f : α → β)
    (s : σ) (item : Option β) :
    (mapIter it f).advance ⟨s, item⟩
      = ⟨it.advance s, (it.get (it.advance s)).map f⟩ := rfl

@[simp]
theorem mapIter_get {σ α β : Type} (it : SIter σ α) (f : α → β)
    (s : σ) (item : Option β) :
    (mapIter it f).get ⟨s, item⟩ = item := rfl

@[simp]
theorem takeIter_advance {σ α : Type} (it : SIter σ α) (s : TakeS σ) :
    (takeIter it).advance s = Take.advance it s := rfl

@[simp]
theorem takeIter_get {σ α : Type} (it : SIter σ α) (s : TakeS σ) :
    (takeIter it).get s = Take.get it s := rfl

@[simp]
theorem skipIter_advance {σ α : Type} (it : SIter σ α) (s : SkipS σ) :
    (skipIter it).advance s = ⟨(it.nth s.n s.it).1, 0⟩ := rfl

@[simp]
theorem skipIter_get {σ α : Type} (it : SIter σ α) (s : SkipS σ) :
    (skipIter it).get s = it.get s.it := rfl

@[simp]
theorem fuseIter_advance {σ α : Type} (it : SIter σ α) (s : FuseS σ) :
    (fuseIter it).advance s = Fuse.advance it s := rfl

@[simp]
theorem fuseIter_get {σ α : Type} (it : SIter σ α) (s : FuseS σ) :
    (fuseIter it).get s = Fuse.get it s := rfl

@[simp]
theorem filterIter_advance {σ α : Type} (it : SIter σ α) (p : α → Bool)
    (fuel : Nat) (s : σ) :
    (filterIter it p fuel).advance s = it.advanceUntil p fuel s := rfl

@[simp]
theorem filterIter_get {σ α : Type} (it : SIter σ α) (p : α → Bool)
    (fuel : Nat) (s : σ) :
    (filterIter it p fuel).get s = it.get s := rfl

@[simp]
theorem filterMapIter_advance {σ α β : Type} (it : SIter σ α)
    (f : α → Option β) (fuel : Nat) (s : FilterMapS σ β) :
    (filterMapIter it f fuel).advance s = FilterMap.advanceF it f fuel s := rfl

@[simp]
theorem filterMapIter_get {σ α β : Type} (it : SIter σ α)
    (f : α → Option β) (fuel : Nat) (s : FilterMapS σ β) :
    (filterMapIter it f fuel).get s = s.item := rfl

@[simp]
theorem skipWhileIter_get {σ α : Type} (it : SIter σ α) (p : α → Bool)
    (fuel : Nat) (s : SkipWhileS σ) :
    (skipWhileIter it p fuel).get s = it.get s.it := rfl

theorem skipWhileIter_advance_done {σ α : Type} (it : SIter σ α)
    (p : α → Bool) (fuel : Nat) (s : σ) :
    (skipWhileIter it p fuel).advance ⟨s, true⟩ = ⟨it.advance s, true⟩ := rfl

theorem skipWhileIter_advance_not_done {σ α : Type} (it : SIter σ α)
    (p : α → Bool) (fuel : Nat) (s : σ) :
    (skipWhileIter it p fuel).advance ⟨s, false⟩
      = ⟨it.advanceUntil (fun x => !p x) fuel s, true⟩ := rfl

@[simp]
theorem convertIter_advance {σ α : Type} (ri : RsIter σ α)
    (s : ConvertS σ α) :
    (convertIter ri).advance s = ⟨(ri.next s.it).2, (ri.next s.it).1⟩ := rfl

@[simp]
theorem convertIter_get {σ α : Type} (ri : RsIter σ α) (s : ConvertS σ α) :
    (convertIter ri).get s = s.item := rfl

theorem convert_sim {α : Type} :
    ∀ (l : List α) (item : Option α),
      Sim (convertIter (listRsIter α)) ⟨l, item⟩ l := by
  intro l
  induction l with
  | nil => intro item; exact Sim.nil rfl
  | cons x xs ih => intro item; exact Sim.cons rfl (ih (some x))

theorem map_collectF {σ α β : Type} (it : SIter σ α) (f : α → β) :
    ∀ (fuel : Nat) (s : σ) (item : Option β),
      (mapIter it f).collectF fuel ⟨s, item⟩ = (it.collectF fuel s).map f := by
  intro fuel
  induction fuel with
  | zero => intro s item; rfl
  | succ n ih =>
    intro s item
    rw [collectF_succ, collectF_succ, mapIter_advance, mapIter_get]
    cases hg : it.get (it.advance s) with
    | none => simp
    | some x => simp [ih]

theorem map_sim {σ α β : Type} {it : SIter σ α} {f : α → β} {s : σ}
    {l : List α} (h : Sim it s l) (item : Option β) :
    Sim (mapIter it f) ⟨s, item⟩ (l.map f) := by
  intro fuel hf
  rw [map_collectF, h fuel (by simpa using hf)]

theorem take_sim {σ α : Type} {it : SIter σ α} :
    ∀ (k : Nat) {s : σ} {l : List α}, Sim it s l →
      Sim (takeIter it) ⟨s, k, false⟩ (l.take k) := by
  intro k
  induction k with
  | zero =>
    intro s l h
    exact Sim.nil (by simp [takeIter, Take.advance, Take.get])
  | succ m ih =>
    intro s l h
    cases l with
    | nil =>
      refine Sim.nil ?_
      have hadv : (takeIter it).advance ⟨s, m + 1, false⟩
          = ⟨it.advance s, m, false⟩ := by
        simp [takeIter, Take.advance]
      rw [hadv]
      simp [takeIter, Take.get, Sim.get_none h]
    | cons x xs =>
      have hadv : (takeIter it).advance ⟨s, m + 1, false⟩
          = ⟨it.advance s, m, false⟩ := by
        simp [takeIter, Take.advance]
      have hg : (takeIter it).get ⟨it.advance s, m, false⟩ = some x := by
        simp [takeIter, Take.get, Sim.get_some h]
      refine Sim.cons ?_ ?_
      · rw [hadv]; exact hg
      · rw [hadv]; exact ih (Sim.tail h)

theorem nth_snd_eq_get_fst {σ α : Type} (it : SIter σ α) :
    ∀ (n : Nat) (s : σ), (it.nth n s).2 = it.get (it.nth n s).1 := by
  intro n
  induction n with
  | zero => intro s; rfl
  | succ m ih =>
    intro s
    rw [SIter.nth]
    cases hg : it.get (it.advance s) with
    | none => simp [hg]
    | some x => simp [hg, ih]

theorem nth_snd {σ α : Type} {it : SIter σ α} :
    ∀ (n : Nat) {s : σ} {l : List α}, Sim it s l →
      (it.nth n s).2 = l[n]? := by
  intro n
  induction n with
  | zero =>
    intro s l h
    cases l with
    | nil => simp [SIter.nth, SIter.next, Sim.get_none h]
    | cons x xs => simp [SIter.nth, SIter.next, Sim.get_some h]
  | succ m ih =>
    intro s l h
    cases l with
    | nil =>
      rw [SIter.nth]
      simp [Sim.get_none h]
    | cons x xs =>
      rw [SIter.nth]
      simp [Sim.get_some h, ih (Sim.tail h)]

theorem nth_fst_sim {σ α : Type} {it : SIter σ α} :
    ∀ (n : Nat) {s : σ} {l : List α}, Sim it s l → n < l.length →
      Sim it (it.nth n s).1 (l.drop (n + 1)) := by
  intro n
  induction n with
  | zero =>
    intro s l h hlt
    cases l with
    | nil => simp at hlt
    | cons x xs => simpa [SIter.nth, SIter.next] using Sim.tail h
  | succ m ih =>
    intro s l h hlt
    cases l with
    | nil => simp at hlt
    | cons x xs =>
      rw [SIter.nth]
      simp only [Sim.get_some h]
      exact ih (Sim.tail h) (by simpa using hlt)

theorem skip_passthrough_sim {σ α : Type} {it : SIter σ α} :
    ∀ {l : List α} {s : σ}, Sim it s l → Sim (skipIter it) ⟨s, 0⟩ l := by
  intro l
  induction l with
  | nil =>
    intro s h
    refine Sim.nil ?_
    simp [skipIter, SIter.nth, SIter.next, Sim.get_none h]
  | cons x xs ih =>
    intro s h
    have hadv : (skipIter it).advance ⟨s, 0⟩ = ⟨it.advance s, 0⟩ := by
      simp [skipIter, SIter.nth, SIter.next]
    refine Sim.cons ?_ ?_
    · rw [hadv]; simpa [skipIter] using Sim.get_some h
    · rw [hadv]; exact ih (Sim.tail h)

theorem skip_sim {σ α : Type} {it : SIter σ α} {s : σ} {l : List α}
    (k : Nat) (h : Sim it s l) :
    Sim (skipIter it) ⟨s, k⟩ (l.drop k) := by
  rcases Nat.lt_or_ge k l.length with hlt | hge
  · have hadv : (skipIter it).advance ⟨s, k⟩ = ⟨(it.nth k s).1, 0⟩ := rfl
    have hget : it.get (it.nth k s).1 = some l[k] := by
      rw [← nth_snd_eq_get_fst, nth_snd k h, List.getElem?_eq_getElem hlt]
    have hdrop : Sim it (it.nth k s).1 (l.drop (k + 1)) := nth_fst_sim k h hlt
    rw [List.drop_eq_getElem_cons hlt]
    refine Sim.cons ?_ ?_
    · rw [hadv]; simpa using hget
    · rw [hadv]; exact skip_passthrough_sim hdrop
  · rw [List.drop_eq_nil_of_le hge]
    refine Sim.nil ?_
    have hget : it.get (it.nth k s).1 = none := by
      rw [← nth_snd_eq_get_fst, nth_snd k h]
      exact List.getElem?_eq_none hge
    simpa using hget

theorem advanceUntil_congr {σ α : Type} {it : SIter σ α} {p : α → Bool} :
    ∀ {l : List α} {s : σ} {f1 f2 : Nat}, Sim it s l →
      l.length < f1 → l.length < f2 →
      it.advanceUntil p f1 s = it.advanceUntil p f2 s := by
  intro l
  induction l with
  | nil =>
    intro s f1 f2 h h1 h2
    match f1, h1, f2, h2 with
    | n1 + 1, _, n2 + 1, _ =>
      rw [SIter.advanceUntil, SIter.advanceUntil]
      simp [Sim.get_none h]
  | cons x xs ih =>
    intro s f1 f2 h h1 h2
    match f1, h1, f2, h2 with
    | n1 + 1, h1, n2 + 1, h2 =>
      rw [SIter.advanceUntil, SIter.advanceUntil]
      simp only [Sim.get_some h]
      by_cases hp : p x
      · simp [hp]
      · simp only [hp, if_false]
        exact ih (Sim.tail h) (by simpa using h1) (by simpa using h2)

theorem filter_sim {σ α : Type} {it : SIter σ α} {p : α → Bool} :
    ∀ {l : List α} {s : σ} {fuel : Nat}, Sim it s l → l.length < fuel →
      Sim (filterIter it p fuel) s (l.filter p) := by
  intro l
  induction l with
  | nil =>
    intro s fuel h hf
    refine Sim.nil ?_
    match fuel, hf with
    | n + 1, _ =>
      simp only [filterIter_advance, filterIter_get]
      rw [SIter.advanceUntil]
      simp [Sim.get_none h]
  | cons x xs ih =>
    intro s fuel h hf
    match fuel, hf with
    | n + 1, hf =>
      have hf' : xs.length + 1 < n + 1 := by simpa using hf
      by_cases hp : p x
      · have hadv : it.advanceUntil p (n + 1) s = it.advance s := by
          rw [SIter.advanceUntil]; simp [Sim.get_some h, hp]
        rw [List.filter_cons_of_pos hp]
        refine Sim.cons ?_ ?_
        · simp only [filterIter_advance, filterIter_get, hadv, Sim.get_some h]
        · have hrec : Sim (filterIter it p (n + 1)) (it.advance s)
              (xs.filter p) := ih (Sim.tail h) (by omega)
          simpa only [filterIter_advance, hadv] using hrec
      · rw [List.filter_cons_of_neg hp]
        have hstep : it.advanceUntil p (n + 1) s
            = it.advanceUntil p n (it.advance s) := by
          rw [SIter.advanceUntil]; simp [Sim.get_some h, hp]
        have hinv : it.advanceUntil p n (it.advance s)
            = it.advanceUntil p (n + 1) (it.advance s) :=
          advanceUntil_congr (Sim.tail h) (by omega) (by omega)
        have hadveq : (filterIter it p (n + 1)).advance s
            = (filterIter it p (n + 1)).advance (it.advance s) := by
          simp only [filterIter_advance]; rw [hstep, hinv]
        exact Sim.of_advance_eq hadveq (ih (Sim.tail h) (by omega))

theorem skipWhile_passthrough_sim {σ α : Type} {it : SIter σ α}
    {p : α → Bool} {fuel : Nat} :
    ∀ {l : List α} {s : σ}, Sim it s l →
      Sim (skipWhileIter it p fuel) ⟨s, true⟩ l := by
  intro l
  induction l with
  | nil =>
    intro s h
    refine Sim.nil ?_
    rw [skipWhileIter_advance_done]
    simpa using Sim.get_none h
  | cons x xs ih =>
    intro s h
    refine Sim.cons ?_ ?_
    · rw [skipWhileIter_advance_done]
      simpa using Sim.get_some h
    · rw [skipWhileIter_advance_done]
      exact ih (Sim.tail h)

theorem skipWhile_sim {σ α : Type} {it : SIter σ α} {p : α → Bool} :
    ∀ {l : List α} {s : σ} {fuel : Nat}, Sim it s l → l.length < fuel →
      Sim (skipWhileIter it p fuel) ⟨s, false⟩ (l.dropWhile p) := by
  intro l
  induction l with
  | nil =>
    intro s fuel h hf
    refine Sim.nil ?_
    match fuel, hf with
    | n + 1, _ =>
      rw [skipWhileIter_advance_not_done]
      rw [SIter.advanceUntil]
      simp [Sim.get_none h]
  | cons x xs ih =>
    intro s fuel h hf
    match fuel, hf with
    | n + 1, hf =>
      have hf' : xs.length + 1 < n + 1 := by simpa using hf
      by_cases hp : p x
      · rw [List.dropWhile_cons_of_pos (by simpa using hp)]
        have hstep : it.advanceUntil (fun y => !p y) (n + 1) s
            = it.advanceUntil (fun y => !p y) n (it.advance s) := by
          rw [SIter.advanceUntil]; simp [Sim.get_some h, hp]
        have hinv : it.advanceUntil (fun y => !p y) n (it.advance s)
            = it.advanceUntil (fun y => !p y) (n + 1) (it.advance s) :=
          advanceUntil_congr (Sim.tail h) (by omega) (by omega)
        have hadveq : (skipWhileIter it p (n + 1)).advance ⟨s, false⟩
            = (skipWhileIter it p (n + 1)).advance ⟨it.advance s, false⟩ := by
          rw [skipWhileIter_advance_not_done, skipWhileIter_advance_not_done,
            hstep, hinv]
        exact Sim.of_advance_eq hadveq (ih (Sim.tail h) (by omega))
      · rw [List.dropWhile_cons_of_neg (by simpa using hp)]
        have hadv : (skipWhileIter it p (n + 1)).advance ⟨s, false⟩
            = ⟨it.advance s, true⟩ := by
          rw [skipWhileIter_advance_not_done, SIter.advanceUntil]
          simp [Sim.get_some h, hp]
        refine Sim.cons ?_ ?_
        · rw [hadv]; simpa using Sim.get_some h
        · rw [hadv]; exact skipWhile_passthrough_sim (Sim.tail h)

theorem filterMap_advanceF_congr {σ α β : Type} {it : SIter σ α}
    {f : α → Option β} :
    ∀ {l : List α} {s : σ} {item : Option β} {f1 f2 : Nat}, Sim it s l →
      l.length < f1 → l.length < f2 →
      FilterMap.advanceF it f f1 ⟨s, item⟩
        = FilterMap.advanceF it f f2 ⟨s, item⟩ := by
  intro l
  induction l with
  | nil =>
    intro s item f1 f2 h h1 h2
    match f1, h1, f2, h2 with
    | n1 + 1, _, n2 + 1, _ =>
      rw [FilterMap.advanceF, FilterMap.advanceF]
      simp [Sim.get_none h]
  | cons x xs ih =>
    intro s item f1 f2 h h1 h2
    match f1, h1, f2, h2 with
    | n1 + 1, h1, n2 + 1, h2 =>
      rw [FilterMap.advanceF, FilterMap.advanceF]
      simp only [Sim.get_some h]
      cases hfx : f x with
      | some b => simp
      | none =>
        simp only []
        exact ih (Sim.tail h) (by simpa using h1) (by simpa using h2)

theorem filterMap_sim {σ α β : Type} {it : SIter σ α} {f : α → Option β} :
    ∀ {l : List α} {s : σ} {fuel : Nat} (item : Option β),
      Sim it s l → l.length < fuel →
      Sim (filterMapIter it f fuel) ⟨s, item⟩ (l.filterMap f) := by
  intro l
  induction l with
  | nil =>
    intro s fuel item h hf
    refine Sim.nil ?_
    match fuel, hf with
    | n + 1, _ =>
      simp only [filterMapIter_advance]
      rw [FilterMap.advanceF]
      simp [Sim.get_none h]
  | cons x xs ih =>
    intro s fuel item h hf
    match fuel, hf with
    | n + 1, hf =>
      have hf' : xs.length + 1 < n + 1 := by simpa using hf
      cases hfx : f x with
      | some b =>
        have hadv : FilterMap.advanceF it f (n + 1) ⟨s, item⟩
            = ⟨it.advance s, some b⟩ := by
          rw [FilterMap.advanceF]; simp [Sim.get_some h, hfx]
        rw [List.filterMap_cons_some hfx]
        refine Sim.cons ?_ ?_
        · simp only [filterMapIter_advance, filterMapIter_get, hadv]
        · have hrec := ih (some b) (Sim.tail h) (show xs.length < n + 1 by omega)
          simpa only [filterMapIter_advance, hadv] using hrec
      | none =>
        rw [List.filterMap_cons_none hfx]
        have hstep : FilterMap.advanceF it f (n + 1) ⟨s, item⟩
            = FilterMap.advanceF it f n ⟨it.advance s, item⟩ := by
          rw [FilterMap.advanceF]; simp [Sim.get_some h, hfx]
        have hinv : FilterMap.advanceF it f n ⟨it.advance s, item⟩
            = FilterMap.advanceF it f (n + 1) ⟨it.advance s, item⟩ :=
          filterMap_advanceF_congr (Sim.tail h) (by omega) (by omega)
        have hadveq : (filterMapIter it f (n + 1)).advance ⟨s, item⟩
            = (filterMapIter it f (n + 1)).advance ⟨it.advance s, item⟩ := by
          simp only [filterMapIter_advance]; rw [hstep, hinv]
        exact Sim.of_advance_eq hadveq
          (ih item (Sim.tail h) (show xs.length < n + 1 by omega))

theorem fuse_sim {σ α : Type} {it : SIter σ α} :
    ∀ {l : List α} {s : σ} {st : FuseState}, st ≠ FuseState.End →
      Sim it s l → Sim (fuseIter it) ⟨s, st⟩ l := by
  intro l
  induction l with
  | nil =>
    intro s st hst h
    refine Sim.nil ?_
    cases st with
    | Start => simp [Fuse.advance, Fuse.get, Sim.get_none h]
    | Middle => simp [Fuse.advance, Fuse.get, Sim.get_none h]
    | End => exact absurd rfl hst
  | cons x xs ih =>
    intro s st hst h
    cases st with
    | Start =>
      have hadv : Fuse.advance it ⟨s, FuseState.Start⟩
          = ⟨it.advance s, FuseState.Middle⟩ := by
        simp [Fuse.advance, Sim.get_some h]
      refine Sim.cons ?_ ?_
      · simp only [fuseIter_advance, fuseIter_get, hadv, Fuse.get]
        exact Sim.get_some h
      · simp only [fuseIter_advance, hadv]
        exact ih (by simp) (Sim.tail h)
    | Middle =>
      have hadv : Fuse.advance it ⟨s, FuseState.Middle⟩
          = ⟨it.advance s, FuseState.Middle⟩ := by
        simp [Fuse.advance, Sim.get_some h]
      refine Sim.cons ?_ ?_
      · simp only [fuseIter_advance, fuseIter_get, hadv, Fuse.get]
        exact Sim.get_some h
      · simp only [fuseIter_advance, hadv]
        exact ih (by simp) (Sim.tail h)
    | End => exact absurd rfl hst

/-!
Lemmas for the Fuse terminal state and the Take frame property.
-/

theorem fuse_advance_state_end {σ α : Type} (it : SIter σ α) (s : FuseS σ)
    (h : Fuse.get it (Fuse.advance it s) = none) :
    (Fuse.advance it s).state = FuseState.End := by
  cases s with
  | mk t st =>
    cases st with
    | Start =>
      cases hg : it.get (it.advance t) with
      | some x => simp [Fuse.advance, Fuse.get, hg] at h
      | none => simp [Fuse.advance, hg]
    | Middle =>
      cases hg : it.get (it.advance t) with
      | some x => simp [Fuse.advance, Fuse.get, hg] at h
      | none => simp [Fuse.advance, hg]
    | End => rfl

theorem fuse_end_trap {σ α : Type} (it : SIter σ α) (s : FuseS σ)
    (h : s.state = FuseState.End) :
    Fuse.advance it s = s ∧ Fuse.get it s = none := by
  cases s with
  | mk t st =>
    cases st with
    | Start => simp at h
    | Middle => simp at h
    | End => exact ⟨rfl, rfl⟩

theorem fuse_end_trap_iterate {σ α : Type} (it : SIter σ α) (s : FuseS σ)
    (h : s.state = FuseState.End) :
    ∀ (n : Nat), Fuse.get it ((Fuse.advance it)^[n] s) = none := by
  intro n
  induction n with
  | zero => simpa using (fuse_end_trap it s h).2
  | succ m ih =>
    rw [Function.iterate_succ_apply, (fuse_end_trap it s h).1]
    exact ih

theorem take_instr_invariant {σ α : Type} (it : SIter σ α) {n : Nat} :
    ∀ (j : Nat) (t : TakeS (σ × Nat)), t.it.2 + t.n ≤ n →
      ((Take.advance (instrumented it))^[j] t).it.2 +
        ((Take.advance (instrumented it))^[j] t).n ≤ n := by
  intro j
  induction j with
  | zero => intro t h; simpa using h
  | succ m ih =>
    intro t h
    rw [Function.iterate_succ_apply]
    apply ih
    by_cases hn : t.n = 0
    · simpa [Take.advance, hn] using h
    · simp only [Take.advance, if_pos hn, instrumented]
      omega

/-!
Bridge lemmas for adaptor chains: the chain machine from its initial
state yields the denotation, and the denotation is no longer than the
base list.
-/

theorem den_length_le_baseLen {α : Type} :
    ∀ (c : Chain α), c.den.length ≤ c.baseLen := by
  intro c
  induction c with
  | base l => exact le_rfl
  | map f c ih => simpa [Chain.den, Chain.baseLen] using ih
  | filter p c ih =>
    refine le_trans ?_ ih
    simpa [Chain.den] using (List.filter_sublist (p := p) c.den).length_le
  | filterMap f c ih =>
    refine le_trans ?_ ih
    simpa [Chain.den] using List.length_filterMap_le f c.den
  | skip n c ih =>
    refine le_trans ?_ ih
    simp [Chain.den]
  | skipWhile p c ih =>
    refine le_trans ?_ ih
    simpa [Chain.den] using (List.dropWhile_sublist (p := p) (l := c.den)).length_le
  | take n c ih =>
    refine le_trans ?_ ih
    simp [Chain.den]
  | fuse c ih => simpa [Chain.den, Chain.baseLen] using ih

theorem chain_sim {α : Type} :
    ∀ (c : Chain α) (fuel : Nat), c.baseLen < fuel →
      Sim (c.iter fuel) c.init c.den := by
  intro c
  induction c with
  | base l => intro fuel _; exact convert_sim l none
  | map f c ih =>
    intro fuel hfuel
    exact map_sim (ih fuel hfuel) none
  | filter p c ih =>
    intro fuel hfuel
    exact filter_sim (ih fuel hfuel)
      (lt_of_le_of_lt (den_length_le_baseLen c) hfuel)
  | filterMap f c ih =>
    intro fuel hfuel
    exact filterMap_sim none (ih fuel hfuel)
      (lt_of_le_of_lt (den_length_le_baseLen c) hfuel)
  | skip n c ih =>
    intro fuel hfuel
    exact skip_sim n (ih fuel hfuel)
  | skipWhile p c ih =>
    intro fuel hfuel
    exact skipWhile_sim (ih fuel hfuel)
      (lt_of_le_of_lt (den_length_le_baseLen c) hfuel)
  | take n c ih =>
    intro fuel hfuel
    exact take_sim n (ih fuel hfuel)
  | fuse c ih =>
    intro fuel hfuel
    exact fuse_sim (by simp) (ih fuel hfuel)

@[simp]
theorem convertIter_sizeHint {σ α : Type} (ri : RsIter σ α)
    (s : ConvertS σ α) : (convertIter ri).sizeHint s = ri.sizeHint s.it := rfl

@[simp]
theorem mapIter_sizeHint {σ α β : Type} (it : SIter σ α) (f : α → β)
    (s : MapS σ β) : (mapIter it f).sizeHint s = it.sizeHint s.it := rfl

@[simp]
theorem filterIter_sizeHint {σ α : Type} (it : SIter σ α) (p : α → Bool)
    (fuel : Nat) (s : σ) :
    (filterIter it p fuel).sizeHint s = (0, (it.sizeHint s).2) := rfl

@[simp]
theorem filterMapIter_sizeHint {σ α β : Type} (it : SIter σ α)
    (f : α → Option β) (fuel : Nat) (s : FilterMapS σ β) :
    (filterMapIter it f fuel).sizeHint s = (0, (it.sizeHint s.it).2) := rfl

@[simp]
theorem skipIter_sizeHint {σ α : Type} (it : SIter σ α) (s : SkipS σ) :
    (skipIter it).sizeHint s
      = ((it.sizeHint s.it).1 - s.n, (it.sizeHint s.it).2.map fun m => m - s.n)
    := rfl

@[simp]
theorem skipWhileIter_sizeHint {σ α : Type} (it : SIter σ α) (p : α → Bool)
    (fuel : Nat) (s : SkipWhileS σ) :
    (skipWhileIter it p fuel).sizeHint s = (0, (it.sizeHint s.it).2) := rfl

@[simp]
theorem takeIter_sizeHint {σ α : Type} (it : SIter σ α) (s : TakeS σ) :
    (takeIter it).sizeHint s
      = (min (it.sizeHint s.it).1 s.n, some s.n) := rfl

@[simp]
theorem fuseIter_sizeHint {σ α : Type} (it : SIter σ α) (s : FuseS σ) :
    (fuseIter it).sizeHint s = it.sizeHint s.it := rfl

theorem chain_default_count {α : Type} (c : Chain α) (fuel : Nat)
    (h : c.baseLen < fuel) :
    (c.iter fuel).countF fuel c.init = c.den.length := by
  rw [countF_eq_length_collectF,
    chain_sim c fuel h fuel (lt_of_le_of_lt (den_length_le_baseLen c) h)]

theorem chain_count {α : Type} :
    ∀ (c : Chain α) (fuel : Nat), c.baseLen < fuel →
      Chain.countF fuel c c.init = c.den.length := by
  intro c
  induction c with
  | base l => intro fuel h; rfl
  | map f c ih => intro fuel h; exact chain_default_count _ fuel h
  | filter p c ih => intro fuel h; exact chain_default_count _ fuel h
  | filterMap f c ih => intro fuel h; exact chain_default_count _ fuel h
  | skip n c ih => intro fuel h; exact chain_default_count _ fuel h
  | skipWhile p c ih => intro fuel h; exact chain_default_count _ fuel h
  | take n c ih => intro fuel h; exact chain_default_count _ fuel h
  | fuse c ih =>
    intro fuel h
    have heq : Chain.countF fuel (Chain.fuse c) (Chain.fuse c).init
        = Chain.countF fuel c c.init := rfl
    rw [heq, ih fuel h]
    rfl

theorem chain_hint {α : Type} :
    ∀ (c : Chain α) (fuel : Nat),
      ((c.iter fuel).sizeHint c.init).1 ≤ c.den.length ∧
      (∀ u, ((c.iter fuel).sizeHint c.init).2 = some u → c.den.length ≤ u) := by
  intro c
  induction c with
  | base l =>
    intro fuel
    refine ⟨le_rfl, ?_⟩
    intro u hu
    have : some l.length = some u := hu
    simp only [Option.some.injEq] at this
    exact this.le
  | map f c ih =>
    intro fuel
    have hind := ih fuel
    refine ⟨?_, ?_⟩
    · simpa [Chain.iter, Chain.init, Chain.den] using hind.1
    · intro u hu
      have h2 := hind.2 u (by simpa [Chain.iter, Chain.init] using hu)
      simpa [Chain.den] using h2
  | filter p c ih =>
    intro fuel
    refine ⟨by simp [Chain.iter], ?_⟩
    intro u hu
    have h2 := (ih fuel).2 u (by simpa [Chain.iter, Chain.init] using hu)
    refine le_trans ?_ h2
    simpa [Chain.den] using (List.filter_sublist (p := p) c.den).length_le
  | filterMap f c ih =>
    intro fuel
    refine ⟨by simp [Chain.iter], ?_⟩
    intro u hu
    have h2 := (ih fuel).2 u (by simpa [Chain.iter, Chain.init] using hu)
    refine le_trans ?_ h2
    simpa [Chain.den] using List.length_filterMap_le f c.den
  | skip n c ih =>
    intro fuel
    have hind := ih fuel
    refine ⟨?_, ?_⟩
    · have h1 := hind.1
      simp only [Chain.iter, Chain.init, Chain.den, skipIter_sizeHint]
      simp only [List.length_drop]
      omega
    · intro u hu
      simp only [Chain.iter, Chain.init, skipIter_sizeHint] at hu
      rcases hh : ((c.iter fuel).sizeHint c.init).2 with _ | v
      · rw [hh] at hu; simp at hu
      · rw [hh] at hu
        simp at hu
        have h2 := hind.2 v hh
        simp only [Chain.den, List.length_drop]
        omega
  | skipWhile p c ih =>
    intro fuel
    refine ⟨by simp [Chain.iter], ?_⟩
    intro u hu
    have h2 := (ih fuel).2 u (by simpa [Chain.iter, Chain.init] using hu)
    refine le_trans ?_ h2
    simpa [Chain.den] using
      (List.dropWhile_sublist (p := p) (l := c.den)).length_le
  | take n c ih =>
    intro fuel
    have hind := ih fuel
    refine ⟨?_, ?_⟩
    · have h1 := hind.1
      simp only [Chain.iter, Chain.init, Chain.den, takeIter_sizeHint]
      simp only [List.length_take]
      omega
    · intro u hu
      simp only [Chain.iter, Chain.init, takeIter_sizeHint,
        Option.some.injEq] at hu
      simp only [Chain.den, List.length_take]
      omega
  | fuse c ih =>
    intro fuel
    have hind := ih fuel
    refine ⟨?_, ?_⟩
    · simpa [Chain.iter, Chain.init, Chain.den] using hind.1
    · intro u hu
      have h2 := hind.2 u (by simpa [Chain.iter, Chain.init] using hu)
      simpa [Chain.den] using h2

theorem countF_succ {σ α : Type} (it : SIter σ α) (fuel : Nat) (s : σ) :
    it.countF (fuel + 1) s =
      match it.get (it.advance s) with
      | none => 0
      | some _ => it.countF fuel (it.advance s) + 1 := rfl

/-!
The claims.
-/

/-- Claim C1 counterexample: for the fused cursor over the one-element
source [0], get before the first advance returns nothing, yet the very
next advance-then-get yields the element 0 — so a get that has returned
nothing is not in general followed only by nothing. -/
theorem c1_counterexample :
    Fuse.get (convertIter (listRsIter Nat))
        (⟨⟨[0], none⟩, FuseState.Start⟩ : FuseS (ConvertS (List Nat) Nat))
      = none ∧
    Fuse.get (convertIter (listRsIter Nat))
        (Fuse.advance (convertIter (listRsIter Nat))
          ⟨⟨[0], none⟩, FuseState.Start⟩)
      = some 0 :=
  ⟨rfl, rfl⟩

/-- Claim C1 (amended): for every inner cursor, the fused cursor's get
before the first advance returns nothing; and once an advance-then-get
pair on the fused cursor has returned nothing, every subsequent
advance-then-get also returns nothing, regardless of what the inner
cursor would do. -/
theorem c1_fuse_totality {σ α : Type} (it : SIter σ α) :
    (∀ s0 : σ, Fuse.get it ⟨s0, FuseState.Start⟩ = none) ∧
    (∀ s : FuseS σ, Fuse.get it (Fuse.advance it s) = none →
      ∀ n : Nat,
        Fuse.get it ((Fuse.advance it)^[n] (Fuse.advance it s)) = none) := by
  refine ⟨fun s0 => rfl, fun s h n => ?_⟩
  exact fuse_end_trap_iterate it (Fuse.advance it s)
    (fuse_advance_state_end it s h) n

/-- Claim C1 witness: the amended statement applied to the fused cursor
over the empty source, three steps past exhaustion. -/
theorem c1_fuse_totality_witness :
    Fuse.get (convertIter (listRsIter Nat))
        (⟨⟨[], none⟩, FuseState.Start⟩ : FuseS (ConvertS (List Nat) Nat))
      = none ∧
    Fuse.get (convertIter (listRsIter Nat))
        ((Fuse.advance (convertIter (listRsIter Nat)))^[2]
          (Fuse.advance (convertIter (listRsIter Nat))
            ⟨⟨[], none⟩, FuseState.Start⟩))
      = none :=
  ⟨(c1_fuse_totality (convertIter (listRsIter Nat))).1 ⟨[], none⟩,
    (c1_fuse_totality (convertIter (listRsIter Nat))).2
      ⟨⟨[], none⟩, FuseState.Start⟩ rfl 2⟩

/-- Claim C2: for a cursor yielding the finite sequence l and any k with
k at most the length of l, the sequence yielded by take(C, k) is the
first k elements, the sequence yielded by skip(C, k) (on an independent
cursor over the same source state) is the rest, and their concatenation
is the original sequence. -/
theorem c2_take_skip_complement {σ α : Type} {it : SIter σ α} {s : σ}
    {l : List α} (k : Nat) (h : Sim it s l) (hk : k ≤ l.length) :
    Sim (takeIter it) ⟨s, k, false⟩ (l.take k) ∧
    Sim (skipIter it) ⟨s, k⟩ (l.drop k) ∧
    l.take k ++ l.drop k = l :=
  ⟨take_sim k h, skip_sim k h, List.take_append_drop k l⟩

/-- Claim C2 witness: the source [0,1,2,3] split at k = 2. -/
theorem c2_take_skip_complement_witness :
    Sim (takeIter (convertIter (listRsIter Nat)))
        ⟨⟨[0, 1, 2, 3], none⟩, 2, false⟩ ([0, 1, 2, 3].take 2) ∧
    Sim (skipIter (convertIter (listRsIter Nat)))
        ⟨⟨[0, 1, 2, 3], none⟩, 2⟩ ([0, 1, 2, 3].drop 2) ∧
    [0, 1, 2, 3].take 2 ++ [0, 1, 2, 3].drop 2 = [0, 1, 2, 3] :=
  c2_take_skip_complement 2 (convert_sim [0, 1, 2, 3] none) (by decide)

/-- Claim C3: for every cursor yielding the sequence l and every total
function f, the cursor map(C, f) yields exactly the elementwise image of
l under f (same length, element by element), whatever item Map currently
stores. -/
theorem c3_map_homomorphism {σ α β : Type} (it : SIter σ α) (f : α → β)
    {s : σ} {l : List α} (h : Sim it s l) (item : Option β) :
    Sim (mapIter it f) ⟨s, item⟩ (l.map f) :=
  map_sim h item

/-- Claim C3 witness: mapping successor over the source [1,2]. -/
theorem c3_map_homomorphism_witness :
    Sim (mapIter (convertIter (listRsIter Nat)) (fun x => x + 1))
      ⟨⟨[1, 2], none⟩, none⟩ ([1, 2].map (fun x => x + 1)) :=
  c3_map_homomorphism (convertIter (listRsIter Nat)) (fun x => x + 1)
    (convert_sim [1, 2] none) none

/-- Claim C4: for a cursor yielding l and a total predicate p (with loop
fuel exceeding the length of l), filter(C, p) yields exactly the filtered
sequence: every yielded element satisfies p, and the yielded sequence is
an order-preserving subsequence of l. -/
theorem c4_filter_soundness {σ α : Type} (it : SIter σ α) (p : α → Bool)
    {s : σ} {l : List α} {fuel : Nat} (h : Sim it s l)
    (hfuel : l.length < fuel) :
    Sim (filterIter it p fuel) s (l.filter p) ∧
    (∀ y ∈ l.filter p, p y = true) ∧
    (l.filter p).Sublist l :=
  ⟨filter_sim h hfuel, fun y hy => List.of_mem_filter hy,
    List.filter_sublist l⟩

/-- Claim C4 witness: filtering the even elements out of [0,1,2,3]. -/
theorem c4_filter_soundness_witness :
    Sim (filterIter (convertIter (listRsIter Nat))
        (fun x => x % 2 == 0) 5)
      ⟨[0, 1, 2, 3], none⟩ ([0, 1, 2, 3].filter (fun x => x % 2 == 0)) ∧
    (∀ y ∈ [0, 1, 2, 3].filter (fun x => x % 2 == 0),
      (fun x => x % 2 == 0) y = true) ∧
    ([0, 1, 2, 3].filter (fun x => x % 2 == 0)).Sublist [0, 1, 2, 3] :=
  c4_filter_soundness (convertIter (listRsIter Nat)) (fun x => x % 2 == 0)
    (convert_sim [0, 1, 2, 3] none) (by decide)

/-- Claim C5: for every adaptor chain over a well-behaved finite source
(and loop fuel exceeding the base length), the dispatched count() lies
between the size_hint lower bound and, when present, the size_hint upper
bound, both read at the chain's initial state. -/
theorem c5_count_size_hint {α : Type} (c : Chain α) (fuel : Nat)
    (hfuel : c.baseLen < fuel) :
    ((c.iter fuel).sizeHint c.init).1 ≤ Chain.countF fuel c c.init ∧
    (∀ u, ((c.iter fuel).sizeHint c.init).2 = some u →
      Chain.countF fuel c c.init ≤ u) := by
  refine ⟨?_, ?_⟩
  · rw [chain_count c fuel hfuel]
    exact (chain_hint c fuel).1
  · intro u hu
    rw [chain_count c fuel hfuel]
    exact (chain_hint c fuel).2 u hu

/-- Claim C5 witness: the chain take 2 of filter even of [0,1,2,3]. -/
theorem c5_count_size_hint_witness :
    (((Chain.take 2 (Chain.filter (fun x => x % 2 == 0)
        (Chain.base [0, 1, 2, 3]))).iter 5).sizeHint
      (Chain.take 2 (Chain.filter (fun x => x % 2 == 0)
        (Chain.base [0, 1, 2, 3]))).init).1
      ≤ Chain.countF 5
          (Chain.take 2 (Chain.filter (fun x => x % 2 == 0)
            (Chain.base [0, 1, 2, 3])))
          (Chain.take 2 (Chain.filter (fun x => x % 2 == 0)
            (Chain.base [0, 1, 2, 3]))).init ∧
    (∀ u, (((Chain.take 2 (Chain.filter (fun x => x % 2 == 0)
        (Chain.base [0, 1, 2, 3]))).iter 5).sizeHint
      (Chain.take 2 (Chain.filter (fun x => x % 2 == 0)
        (Chain.base [0, 1, 2, 3]))).init).2 = some u →
      Chain.countF 5
          (Chain.take 2 (Chain.filter (fun x => x % 2 == 0)
            (Chain.base [0, 1, 2, 3])))
          (Chain.take 2 (Chain.filter (fun x => x % 2 == 0)
            (Chain.base [0, 1, 2, 3]))).init ≤ u) :=
  c5_count_size_hint
    (Chain.take 2 (Chain.filter (fun x => x % 2 == 0)
      (Chain.base [0, 1, 2, 3]))) 5 (by decide)

/-- Claim C6: for a cursor whose remaining yield is l (so m = length of
l elements remain), nth(n) returns the element at zero-based offset n
whenever n is less than m, and returns nothing whenever n is at least m
(in particular nothing at n = m, and the last element at n = m - 1). -/
theorem c6_nth {σ α : Type} (it : SIter σ α) (n : Nat) {s : σ}
    {l : List α} (h : Sim it s l) :
    (∀ hlt : n < l.length, (it.nth n s).2 = some (l.get ⟨n, hlt⟩)) ∧
    (l.length ≤ n → (it.nth n s).2 = none) := by
  refine ⟨?_, ?_⟩
  · intro hlt
    rw [nth_snd n h, List.getElem?_eq_getElem hlt, List.get_eq_getElem]
  · intro hn
    rw [nth_snd n h]
    exact List.getElem?_eq_none hn

/-- Claim C6 witness: the source [0,1] probed at offset 1 (the last
element, n = m - 1) and at offset 2 (n = m, past the end). -/
theorem c6_nth_witness :
    ((∀ hlt : 1 < [0, 1].length,
        ((convertIter (listRsIter Nat)).nth 1 ⟨[0, 1], none⟩).2
          = some ([0, 1].get ⟨1, hlt⟩)) ∧
      ([0, 1].length ≤ 1 →
        ((convertIter (listRsIter Nat)).nth 1 ⟨[0, 1], none⟩).2 = none)) ∧
    ((∀ hlt : 2 < [0, 1].length,
        ((convertIter (listRsIter Nat)).nth 2 ⟨[0, 1], none⟩).2
          = some ([0, 1].get ⟨2, hlt⟩)) ∧
      ([0, 1].length ≤ 2 →
        ((convertIter (listRsIter Nat)).nth 2 ⟨[0, 1], none⟩).2 = none)) :=
  ⟨c6_nth (convertIter (listRsIter Nat)) 1 (convert_sim [0, 1] none),
    c6_nth (convertIter (listRsIter Nat)) 2 (convert_sim [0, 1] none)⟩

/-- Claim C7: take(C, n) performs at most n inner advance calls in
total (measured on an instrumented inner cursor that counts them); once
the remaining count is zero, advance only sets the done flag and leaves
the inner cursor untouched, and get then returns nothing. -/
theorem c7_take_frame {σ α : Type} (it : SIter σ α) (s : σ) (n : Nat)
    (s0 : σ) (d : Bool) :
    (∀ j : Nat,
      ((Take.advance (instrumented it))^[j]
        (⟨(s, 0), n, false⟩ : TakeS (σ × Nat))).it.2 ≤ n) ∧
    Take.advance it ⟨s0, 0, d⟩ = ⟨s0, 0, true⟩ ∧
    Take.get it ⟨s0, 0, true⟩ = none := by
  refine ⟨?_, ?_, rfl⟩
  · intro j
    have h := @take_instr_invariant σ α it n j ⟨(s, 0), n, false⟩ (by simp)
    omega
  · simp [Take.advance]

/-- Claim C9: for every underlying value-producing sequence, Convert's
overridden count (delegating to the underlying sequence) equals the
default count implementation (repeatedly calling next until nothing),
whatever stored element Convert currently holds. -/
theorem c9_convert_count {σ α : Type} (ri : RsIter σ α) :
    ∀ (fuel : Nat) (s : σ) (item : Option α),
      Convert.count ri fuel ⟨s, item⟩
        = (convertIter ri).countF fuel ⟨s, item⟩ := by
  intro fuel
  induction fuel with
  | zero => intro s item; rfl
  | succ n ih =>
    intro s item
    rw [countF_succ]
    simp only [Convert.count, RsIter.countF]
    cases hn : ri.next s with
    | mk v s1 =>
      cases v with
      | none => simp [hn]
      | some x =>
        have h2 := ih s1 (some x)
        simp only [Convert.count] at h2
        simp [hn, h2]

/-- Claim C10: for every inner cursor and every Fuse state, Fuse's
specialized next override returns the same value and the same final
state (state field and inner cursor) as the default next, advance
followed by get. -/
theorem c10_fuse_next_equiv {σ α : Type} (it : SIter σ α) (s : FuseS σ) :
    Fuse.nextImpl it s = (fuseIter it).next s := by
  cases s with
  | mk t st =>
    cases st with
    | Start =>
      cases hg : it.get (it.advance t) with
      | some x =>
        simp [Fuse.nextImpl, SIter.next, Fuse.advance, Fuse.get, hg]
      | none =>
        simp [Fuse.nextImpl, SIter.next, Fuse.advance, Fuse.get, hg]
    | Middle =>
      cases hg : it.get (it.advance t) with
      | some x =>
        simp [Fuse.nextImpl, SIter.next, Fuse.advance, Fuse.get, hg]
      | none =>
        simp [Fuse.nextImpl, SIter.next, Fuse.advance, Fuse.get, hg]
    | End => rfl
